import Mathlib

/-!
Verification of the OriannaBot role-synchronization updater
(src/backend/src/discord/updater.ts) via a shallow embedding in Lean.

The updater pulls per-account game data from an external API, merges it
across the accounts linked to one user, reconciles the merged data into
persisted Stat/Rank/Account rows, and finally diffs the user's desired
Discord role set against the roles they actually hold, issuing minimal
add/remove operations plus optional promotion announcements.

External collaborators (the Riot API, the database, the chat platform)
are modelled by passing their responses as explicit data; JavaScript
`Map`s are modelled by insertion-ordered association lists; side effects
are modelled as explicit traces of operations.
-/

set_option maxHeartbeats 1000000

namespace Orianna

/-! ## JavaScript `Map` embedding

A JS `Map` preserves insertion order; `set` on an existing key updates the
value in place, `set` on a fresh key appends.  `get` returns the value for
the key or `undefined` (here: `none`).  All maps built by the updater start
empty and are only modified through `set`, so keys are unique and the
first-match lookup below coincides with JS `Map.get`. -/

/-- `m.get(k)` for a JS `Map` modelled as an association list. -/
def jsGet {α β : Type} [DecidableEq α] : List (α × β) → α → Option β
  | [], _ => none
  | p :: t, k => if p.1 = k then some p.2 else jsGet t k

/-- `m.set(k, v)` for a JS `Map`: update in place if the key is present,
append otherwise. -/
def jsSet {α β : Type} [DecidableEq α] : List (α × β) → α → β → List (α × β)
  | [], k, v => [(k, v)]
  | p :: t, k, v => if p.1 = k then (k, v) :: t else p :: jsSet t k v

/-- The generic accumulation loop both `fetchRanked` and
`fetchMasteryScores` perform: for every fetched entry, read the current
value stored under the entry's key (if any), combine it with the entry,
and store the result back. -/
def jsAccum {α β ε : Type} [DecidableEq α] (key : ε → α) (upd : Option β → ε → β)
    (l : List ε) (m : List (α × β)) : List (α × β) :=
  l.foldl (fun m e => jsSet m (key e) (upd (jsGet m (key e)) e)) m

/-- `new Set(l)` for a JS array `l`: keeps the first occurrence of each
element, in order.  (Dropping an element when it occurred earlier is the
same list as keeping it and filtering it out of the recursive result, and
the latter is structurally recursive.) -/
def jsSetOf {α : Type} [DecidableEq α] : List α → List α
  | [] => []
  | a :: t => a :: (jsSetOf t).filter (fun x => ¬ x = a)

/-! ## Data model

Rows as loaded and mutated by the updater; the opaque collaborators
(`role.test(user)`, the Riot API, the Discord guild state) enter as
explicit data. -/

/-- A Role row as loaded by `updateUserOnGuild` (`server.roles` eager
with conditions).  `testResult` is the value of the opaque predicate
`role.test(user)` for the user under consideration. -/
structure Role where
  snowflake : String
  name : String
  announce : Bool
  server_id : Nat
  testResult : Bool
deriving DecidableEq, Repr

/-- A Server row.  `announcement_channel` is nullable in the schema. -/
structure ServerRec where
  id : Nat
  snowflake : String
  announcement_channel : Option String
deriving DecidableEq, Repr

/-- Discord channel kinds, as far as the updater cares:
`announcePromotion` requires `channel instanceof eris.TextChannel`. -/
inductive ChannelKind
  | text
  | nonText
deriving DecidableEq, Repr

/-- The guild-side state reconciliation reads: which role snowflakes still
exist on the guild (`guild.roles`), the member's current role list
(`member.roles`) and the guild's channels (`guild.channels`). -/
structure GuildState where
  roleIds : List String
  memberRoles : List String
  channels : List (String × ChannelKind)
deriving DecidableEq, Repr

/-- Side effects issued while reconciling one user on one guild. -/
inductive GuildOp
  | removeRole (role : String) (reason : String)
  | addRole (role : String) (reason : String)
  | announce (role : String)
deriving DecidableEq, Repr

/-! ## `announcePromotion` and `updateUserOnGuild` -/

/-- `announcePromotion(user, role, guild)`: returns without doing anything
unless the role is marked for announcement, the owning Server row exists
and has an announcement channel configured, and that channel still exists
on the guild as a text channel; otherwise renders the promotion graphic
and posts it (modelled as a single `announce` effect). -/
def announcePromotion (findServerById : Nat → Option ServerRec)
    (guild : GuildState) (role : Role) : List GuildOp :=
  if ¬ role.announce then [] else
  match findServerById role.server_id with
  | none => []
  | some server =>
    match server.announcement_channel with
    | none => []
    | some chId =>
      match jsGet guild.channels chId with
      | some ChannelKind.text => [GuildOp.announce role.snowflake]
      | _ => []

/-- The lookup-and-announce step performed when a role is granted:
`this.announcePromotion(user, server.roles!.find(x => x.snowflake === role)!, guild)`.
(The source's non-null assertion on the `find` is modelled by an
unreachable `[]` branch: every iterated snowflake comes from
`serverRoles`.) -/
def promotionOps (findServerById : Nat → Option ServerRec) (serverRoles : List Role)
    (guild : GuildState) (role : String) : List GuildOp :=
  match serverRoles.find? (fun x => x.snowflake = role) with
  | some r => announcePromotion findServerById guild r
  | none => []

/-- The body of `updateUserOnGuild`'s `for (const role of allRoles)` loop:
skip roles the platform no longer has, remove a held-but-not-deserved
role, add a deserved-but-not-held role and trigger the promotion
announcement. -/
def reconcileRole (findServerById : Nat → Option ServerRec) (serverRoles : List Role)
    (guild : GuildState) (shouldHave userHas : List String) (role : String) :
    List GuildOp :=
  if ¬ role ∈ guild.roleIds then [] else
  (if role ∈ userHas ∧ ¬ role ∈ shouldHave then
    [GuildOp.removeRole role "Orianna - User does not meet requirements for this role."]
   else []) ++
  (if ¬ role ∈ userHas ∧ role ∈ shouldHave then
    GuildOp.addRole role "Orianna - User meets requirements for role." ::
      promotionOps findServerById serverRoles guild role
   else [])

/-- `updateUserOnGuild(user, guild)` after the Server row was found and
the user is a member of the guild: builds the `allRoles`, `shouldHave`
and `userHas` sets and runs the reconciliation loop over `allRoles`. -/
def updateUserOnGuild (findServerById : Nat → Option ServerRec)
    (serverRoles : List Role) (guild : GuildState) : List GuildOp :=
  let allRoles := jsSetOf (serverRoles.map (·.snowflake))
  let shouldHave := jsSetOf ((serverRoles.filter (·.testResult)).map (·.snowflake))
  let userHas := jsSetOf guild.memberRoles
  allRoles.flatMap (reconcileRole findServerById serverRoles guild shouldHave userHas)

/-- Does this operation remove role `r`? -/
def removesRole (r : String) : GuildOp → Bool
  | GuildOp.removeRole r' _ => r' = r
  | _ => false

/-- Does this operation add role `r`? -/
def addsRole (r : String) : GuildOp → Bool
  | GuildOp.addRole r' _ => r' = r
  | _ => false

/-- Does this operation announce a promotion to role `r`? -/
def announcesRole (r : String) : GuildOp → Bool
  | GuildOp.announce r' => r' = r
  | _ => false

/-- The configuration conditions `announcePromotion` checks before doing
anything: the role's announce flag, existence of the owning Server row,
a configured announcement channel, and that channel existing on the
guild as a text channel. -/
def announceConfigured (findServerById : Nat → Option ServerRec) (guild : GuildState)
    (role : Role) : Bool :=
  role.announce &&
    (match findServerById role.server_id with
     | none => false
     | some server =>
       match server.announcement_channel with
       | none => false
       | some chId =>
         match jsGet guild.channels chId with
         | some ChannelKind.text => true
         | _ => false)

/-! ## `fetchRanked` -/

/-- A raw league-position entry from `getLeaguePositions`. -/
structure LeagueEntry where
  queueType : String
  tier : String
deriving DecidableEq, Repr

/-- A Rank row (`UserRank`). -/
structure UserRank where
  queue : String
  tier : String
deriving DecidableEq, Repr

/-- The fixed low-to-high tier ordering (`config.riot.tiers`). -/
def tiers : List String :=
  ["IRON", "BRONZE", "SILVER", "GOLD", "PLATINUM", "DIAMOND", "MASTER",
   "GRANDMASTER", "CHALLENGER"]

/-- JS `Array.prototype.indexOf`: index of the first occurrence, `-1`
when absent. -/
def jsIndexOf {α : Type} [DecidableEq α] : List α → α → Int
  | [], _ => -1
  | x :: t, a =>
    if x = a then 0
    else if jsIndexOf t a < 0 then -1 else jsIndexOf t a + 1

/-- The per-entry update in `fetchRanked`'s merge loop:
`tiers.set(queueType, old > val ? old : val)` with `old` defaulting to
`0` and `val` the tier's index in the fixed ordering. -/
def rankedUpd (old : Option Int) (e : LeagueEntry) : Int :=
  let o := old.getD 0
  let val := jsIndexOf tiers e.tier
  if o > val then o else val

/-- The merge in `fetchRanked`: accumulate the highest observed tier
index per queue over all accounts' league positions. -/
def mergeRanked (results : List (List LeagueEntry)) : List (String × Int) :=
  results.foldl (fun m rs =>
    rs.foldl (fun m e => jsSet m e.queueType (rankedUpd (jsGet m e.queueType) e)) m) []

/-- `fetchRanked`: merge positions across all accounts, delete **all**
existing Rank rows, then insert one row per merged queue, reading the
tier string back from the fixed ordering.  The pre-existing rows
(`oldRanks`) do not survive. -/
def fetchRanked (oldRanks : List UserRank) (results : List (List LeagueEntry)) :
    List UserRank :=
  let _ := oldRanks
  (mergeRanked results).map (fun qt => ⟨qt.1, tiers.getD qt.2.toNat ""⟩)

/-- Concrete league positions for the C2 witness: two accounts, the
first GOLD in solo queue, the second SILVER in solo queue and BRONZE in
flex queue. -/
def rankedResultsEx : List (List LeagueEntry) :=
  [[⟨"RANKED_SOLO_5x5", "GOLD"⟩],
   [⟨"RANKED_SOLO_5x5", "SILVER"⟩, ⟨"RANKED_FLEX_SR", "BRONZE"⟩]]

/-! ## `fetchMasteryScores` -/

/-- A raw champion-mastery entry from `getChampionMastery`. -/
structure ChampionMasteryInfo where
  championPoints : Nat
  championId : Nat
  championLevel : Nat
deriving DecidableEq, Repr

/-- A Stat row (`UserChampionStat`). -/
structure UserChampionStat where
  champion_id : Nat
  level : Nat
  score : Nat
  games_played : Nat
deriving DecidableEq, Repr

/-- Persistence operations `fetchMasteryScores` issues on Stat rows:
`oldScore.$query().delete()` and
`user.$relatedQuery("stats").insert(...)`. -/
inductive StatOp
  | deleteStat (champion_id : Nat)
  | insertStat (row : UserChampionStat)
deriving DecidableEq, Repr

/-- The champion a Stat operation is about. -/
def statOpChampion : StatOp → Nat
  | StatOp.deleteStat c => c
  | StatOp.insertStat row => row.champion_id

/-- The per-entry update in `fetchMasteryScores`'s merge loop: add the
points to the stored score, keep the larger level (`old.level >
mastery.championLevel ? old.level : mastery.championLevel`), starting
from `{score: 0, level: 0}`.  The stored pair is `(score, level)`. -/
def masteryUpd (old : Option (Nat × Nat)) (e : ChampionMasteryInfo) : Nat × Nat :=
  let o := old.getD (0, 0)
  (o.1 + e.championPoints, if o.2 > e.championLevel then o.2 else e.championLevel)

/-- The merge in `fetchMasteryScores`: accumulate summed score and
maximum level per champion over all accounts' mastery lists. -/
def mergeMastery (masteries : List (List ChampionMasteryInfo)) :
    List (Nat × (Nat × Nat)) :=
  masteries.foldl (fun m ms =>
    ms.foldl (fun m e => jsSet m e.championId (masteryUpd (jsGet m e.championId) e)) m) []

/-- One iteration of the `for (const [champion, score] of scores)` write
loop: look the champion up in the in-memory `user.stats` snapshot; skip
when level and score already match; otherwise delete the old row (if
any) and insert the merged row, carrying over the old row's
`games_played` (0 when there was no old row). -/
def masteryWrite (stats : List UserChampionStat) (entry : Nat × (Nat × Nat)) :
    List StatOp :=
  match stats.find? (fun x => x.champion_id = entry.1) with
  | some oldScore =>
    if entry.2.2 = oldScore.level ∧ entry.2.1 = oldScore.score then []
    else [StatOp.deleteStat entry.1,
          StatOp.insertStat ⟨entry.1, entry.2.2, entry.2.1, oldScore.games_played⟩]
  | none => [StatOp.insertStat ⟨entry.1, entry.2.2, entry.2.1, 0⟩]

/-- The full sequence of Stat writes one `fetchMasteryScores` run issues
(lookups use the `user.stats` snapshot loaded before the loop). -/
def fetchMasteryScoresOps (stats : List UserChampionStat)
    (masteries : List (List ChampionMasteryInfo)) : List StatOp :=
  (mergeMastery masteries).flatMap (masteryWrite stats)

/-- Applying one Stat operation to the persisted rows: a delete removes
the row the `$query().delete()` targeted (the found row for that
champion), an insert appends. -/
def applyStatOp (rows : List UserChampionStat) : StatOp → List UserChampionStat
  | StatOp.deleteStat c => rows.eraseP (fun x => x.champion_id = c)
  | StatOp.insertStat row => rows ++ [row]

/-- The persisted Stat rows after one `fetchMasteryScores` run (also what
the trailing `user.stats = await user.$relatedQuery("stats")` refetch
reads back). -/
def fetchMasteryScores (stats : List UserChampionStat)
    (masteries : List (List ChampionMasteryInfo)) : List UserChampionStat :=
  (fetchMasteryScoresOps stats masteries).foldl applyStatOp stats

/-- Stat rows and mastery fetch results for the mastery witnesses: one
existing row for champion 1 with 42 games played, and two accounts
knowing champion 1 with (100 pts, level 3) and (50 pts, level 5). -/
def masteryStatsEx : List UserChampionStat := [⟨1, 3, 100, 42⟩]

def masteryResultsEx : List (List ChampionMasteryInfo) :=
  [[⟨100, 1, 3⟩], [⟨50, 1, 5⟩]]

/-- Stat rows for the C9 witness: an existing row for champion 2, which
no account's mastery list mentions. -/
def masteryStatsEx9 : List UserChampionStat := [⟨2, 7, 10, 3⟩]

/-! ## `fetchAccounts` -/

/-- A linked game account (`LeagueAccount`). -/
structure LeagueAccount where
  region : String
  summoner_id : Nat
  account_id : Nat
  username : String
deriving DecidableEq, Repr

/-- The summoner record `getSummonerById` returns (when found). -/
structure Summoner where
  name : String
  id : Nat
  accountId : Nat
deriving DecidableEq, Repr

/-- External effects `fetchAccounts` issues: the Account row delete, the
username update, and the direct-message notification
(`this.client.notify(...)`, fired without awaiting — its failure cannot
propagate into the loop). -/
inductive AccountOp
  | deleteAccount (region : String) (summoner_id : Nat)
  | updateUsername (region : String) (summoner_id : Nat) (newName : String)
  | notify (title : String)
deriving DecidableEq, Repr

/-- `fetchAccounts`: for every account in a copy of the in-memory list,
look the summoner up.
Not found ⇒ transfer: delete the Account row and notify the user; the
source then runs `user.accounts.slice(user.accounts.indexOf(account), 1)`
— `Array.prototype.slice` is non-mutating (its result is discarded), so
the in-memory collection keeps the account.
Found with a different name ⇒ rename: update the stored username in the
row and on the in-memory object.
Returns the in-memory accounts array after the loop and the trace of
issued operations. -/
def fetchAccounts (accounts : List LeagueAccount)
    (lookup : String → Nat → Option Summoner) :
    List LeagueAccount × List AccountOp :=
  accounts.foldl (fun (st : List LeagueAccount × List AccountOp) account =>
    match lookup account.region account.summoner_id with
    | none =>
      (st.1,
       st.2 ++ [AccountOp.deleteAccount account.region account.summoner_id,
                AccountOp.notify "✈ Account Transferred?"])
    | some summoner =>
      if summoner.name ≠ account.username then
        (st.1.map (fun a =>
          if a.region = account.region ∧ a.summoner_id = account.summoner_id then
            { a with username := summoner.name }
          else a),
         st.2 ++ [AccountOp.updateUsername account.region account.summoner_id
                    summoner.name])
      else st) (accounts, [])

/-! ## Pipeline error containment (`fetchAndUpdateAll`, `updateUser`) -/

/-- `Promise.all` over already-settled outcomes: rejects with the first
rejection, resolves otherwise. -/
def promiseAll (rs : List (Except String Unit)) : Except String Unit :=
  match rs.find? (fun r => match r with | Except.error _ => true | _ => false) with
  | some (Except.error e) => Except.error e
  | _ => Except.ok ()

/-- `updateUser`: reconcile every shared guild via `Promise.all`; the
`catch` block logs and **rethrows**, so a guild failure propagates to
the caller unchanged. -/
def updateUser (guildResults : List (Except String Unit)) : Except String Unit :=
  promiseAll guildResults

/-- The guarded body of `fetchAndUpdateAll`: `await fetchAccounts`, then
`await fetchGamesPlayed`, then `await Promise.all([mastery, ranked])`,
then `await updateUser`. -/
def pipelineBody (accounts games mastery ranked : Except String Unit)
    (guildResults : List (Except String Unit)) : Except String Unit := do
  accounts
  games
  promiseAll [mastery, ranked]
  updateUser guildResults

/-- The `try`/`catch` around the body of `fetchAndUpdateAll`: an error is
logged, reported to the error tracker (`elastic.reportError(e)`) and
swallowed.  Returns the call's outcome together with the reports made. -/
def runPipeline (accounts games mastery ranked : Except String Unit)
    (guildResults : List (Except String Unit)) :
    Except String Unit × List String :=
  match pipelineBody accounts games mastery ranked guildResults with
  | Except.ok () => (Except.ok (), [])
  | Except.error e => (Except.ok (), [e])

/-- `fetchAndUpdateAll` called with a snowflake string: the User row
lookup happens before the `try` block, so a missing row throws
`"User <snowflake> not found."` to the caller — nothing is fetched and
nothing is reported. -/
def fetchAndUpdateAll (dbUser : Option Unit) (snowflake : String)
    (accounts games mastery ranked : Except String Unit)
    (guildResults : List (Except String Unit)) :
    Except String (Except String Unit × List String) :=
  match dbUser with
  | none => Except.error ("User " ++ snowflake ++ " not found.")
  | some _ =>
    Except.ok (runPipeline accounts games mastery ranked guildResults)

def guildFailureEx : List (Except String Unit) := [Except.error "guild boom"]

/-! ## Stage ordering of the pipeline body

`fetchAndUpdateAll` awaits `fetchAccounts`, then `fetchGamesPlayed`, then
`Promise.all([fetchMasteryScores, fetchRanked])`.  The first two run to
completion strictly in sequence; the two fetches inside `Promise.all`
run concurrently, so their start/end events interleave according to the
scheduler, modelled as an oracle of booleans. -/

/-- Events marking the start and end of each fetch stage. -/
inductive StageEv
  | startAccounts
  | endAccounts
  | startGames
  | endGames
  | startMastery
  | endMastery
  | startRanked
  | endRanked
deriving DecidableEq, Repr

/-- Interleaving of two event sequences under a scheduler oracle:
`true` runs the next event of the first sequence, `false` of the second;
an exhausted side cedes to the other. -/
def interleave {α : Type} : List Bool → List α → List α → List α
  | [], xs, ys => xs ++ ys
  | true :: o, xs, ys =>
    match xs with
    | [] => ys
    | x :: xs' => x :: interleave o xs' ys
  | false :: o, xs, ys =>
    match ys with
    | [] => xs
    | y :: ys' => y :: interleave o xs ys'

/-- The event trace of the awaits in `fetchAndUpdateAll`'s body, for a
given scheduling of the two concurrent fetches. -/
def pipelineTrace (oracle : List Bool) : List StageEv :=
  [StageEv.startAccounts, StageEv.endAccounts,
   StageEv.startGames, StageEv.endGames] ++
    interleave oracle [StageEv.startMastery, StageEv.endMastery]
      [StageEv.startRanked, StageEv.endRanked]

/-! ## Theorems -/

theorem jsGet_jsSet {α β : Type} [DecidableEq α] (m : List (α × β)) (k k' : α) (v : β) :
    jsGet (jsSet m k v) k' = if k' = k then some v else jsGet m k' := by
  induction m with
  | nil =>
    by_cases h : k' = k
    · subst h; simp [jsGet, jsSet]
    · simp [jsGet, jsSet, h, Ne.symm h]
  | cons p t ih =>
    by_cases hp : p.1 = k
    · by_cases h : k' = k
      · subst h; simp [jsGet, jsSet, hp]
      · have hpk : ¬ p.1 = k' := by rw [hp]; exact Ne.symm h
        simp [jsGet, jsSet, hp, h, Ne.symm h, hpk]
    · by_cases h : k' = k
      · subst h
        simp [jsGet, jsSet, hp, ih]
      · simp [jsGet, jsSet, hp, h, ih]

/-- Reading the accumulated map at `k` only sees the entries whose key is
`k`, folded in order over the value previously stored at `k`. -/
theorem jsGet_jsAccum {α β ε : Type} [DecidableEq α] (key : ε → α)
    (upd : Option β → ε → β) (l : List ε) (m : List (α × β)) (k : α) :
    jsGet (jsAccum key upd l m) k =
      (l.filter (fun e => key e = k)).foldl (fun acc e => some (upd acc e)) (jsGet m k) := by
  induction l generalizing m with
  | nil => rfl
  | cons e t ih =>
    have step : jsAccum key upd (e :: t) m =
        jsAccum key upd t (jsSet m (key e) (upd (jsGet m (key e)) e)) := rfl
    rw [step, ih]
    by_cases h : key e = k
    · simp [List.filter, h, jsGet_jsSet]
    · simp [List.filter, h, jsGet_jsSet, Ne.symm h]

/-- The keys of a map built by `jsSet` are exactly the old keys plus `k`. -/
theorem keys_jsSet {α β : Type} [DecidableEq α] (m : List (α × β)) (k k' : α) (v : β) :
    (k' ∈ (jsSet m k v).map (·.1)) ↔ (k' ∈ m.map (·.1) ∨ k' = k) := by
  induction m with
  | nil => simp [jsSet]
  | cons p t ih =>
    by_cases hp : p.1 = k
    · subst hp
      by_cases h : k' = p.1 <;> simp [jsSet, h]
    · simp only [jsSet, if_neg hp, List.map_cons, List.mem_cons, ih]
      tauto

/-- `jsSet` preserves distinctness of keys. -/
theorem nodup_keys_jsSet {α β : Type} [DecidableEq α] (m : List (α × β)) (k : α) (v : β)
    (h : (m.map (·.1)).Nodup) : ((jsSet m k v).map (·.1)).Nodup := by
  induction m with
  | nil => simp [jsSet]
  | cons p t ih =>
    simp only [List.map_cons, List.nodup_cons] at h
    by_cases hp : p.1 = k
    · subst hp
      simpa [jsSet] using h
    · have := ih h.2
      simp only [jsSet, if_neg hp, List.map_cons, List.nodup_cons]
      refine ⟨fun hmem => ?_, this⟩
      rcases (keys_jsSet t k p.1 v).mp hmem with hin | heq
      · exact h.1 hin
      · exact hp heq

/-- Maps built by `jsAccum` from the empty map have distinct keys. -/
theorem nodup_keys_jsAccum {α β ε : Type} [DecidableEq α] (key : ε → α)
    (upd : Option β → ε → β) (l : List ε) (m : List (α × β))
    (h : (m.map (·.1)).Nodup) : ((jsAccum key upd l m).map (·.1)).Nodup := by
  induction l generalizing m with
  | nil => exact h
  | cons e t ih => exact ih _ (nodup_keys_jsSet _ _ _ h)

/-- A key is present in the accumulated map iff it was present before or
some entry carries it. -/
theorem mem_keys_jsAccum {α β ε : Type} [DecidableEq α] (key : ε → α)
    (upd : Option β → ε → β) (l : List ε) (m : List (α × β)) (k : α) :
    (k ∈ (jsAccum key upd l m).map (·.1)) ↔ (k ∈ m.map (·.1) ∨ ∃ e ∈ l, key e = k) := by
  induction l generalizing m with
  | nil => simp [jsAccum]
  | cons e t ih =>
    have step : jsAccum key upd (e :: t) m =
        jsAccum key upd t (jsSet m (key e) (upd (jsGet m (key e)) e)) := rfl
    rw [step, ih, keys_jsSet]
    constructor
    · rintro ((hm | hk) | ⟨e', he', hk⟩)
      · exact Or.inl hm
      · exact Or.inr ⟨e, List.mem_cons_self .., hk.symm⟩
      · exact Or.inr ⟨e', List.mem_cons_of_mem _ he', hk⟩
    · rintro (hm | ⟨e', he', hk⟩)
      · exact Or.inl (Or.inl hm)
      · rcases List.mem_cons.mp he' with rfl | he'
        · exact Or.inl (Or.inr hk.symm)
        · exact Or.inr ⟨e', he', hk⟩

/-- In a map with distinct keys, filtering the rows on a key gives the
singleton row `jsGet` reads (or nothing when the key is absent). -/
theorem filter_key_eq_of_nodup {α β : Type} [DecidableEq α] (m : List (α × β)) (k : α)
    (h : (m.map (·.1)).Nodup) :
    m.filter (fun p => p.1 = k) = (jsGet m k).elim [] (fun v => [(k, v)]) := by
  induction m with
  | nil => simp [jsGet]
  | cons p t ih =>
    simp only [List.map_cons, List.nodup_cons] at h
    by_cases hp : p.1 = k
    · have hnil : t.filter (fun p => decide (p.1 = k)) = [] := by
        rw [List.filter_eq_nil_iff]
        intro q hq hdec
        exact h.1 (by rw [hp, ← (of_decide_eq_true hdec)]; exact List.mem_map_of_mem _ hq)
      have hpair : p = (k, p.2) := Prod.ext hp rfl
      rw [List.filter_cons_of_pos (by simpa using hp), hnil,
        show jsGet (p :: t) k = some p.2 by simp [jsGet, hp]]
      exact congrArg (· :: []) hpair
    · rw [List.filter_cons_of_neg (by simpa using hp),
        show jsGet (p :: t) k = jsGet t k by simp [jsGet, hp]]
      exact ih h.2

theorem mem_jsSetOf {α : Type} [DecidableEq α] (l : List α) (x : α) :
    x ∈ jsSetOf l ↔ x ∈ l := by
  induction l with
  | nil => simp [jsSetOf]
  | cons a t ih =>
    rw [jsSetOf]
    by_cases h : x = a
    · simp [h]
    · simp [List.mem_filter, h, ih]

theorem nodup_jsSetOf {α : Type} [DecidableEq α] (l : List α) :
    (jsSetOf l).Nodup := by
  induction l with
  | nil => simp [jsSetOf]
  | cons a t ih =>
    rw [jsSetOf, List.nodup_cons]
    refine ⟨fun hmem => ?_, ih.filter _⟩
    have hf := List.mem_filter.mp hmem
    simp at hf

theorem announcePromotion_eq (findServerById : Nat → Option ServerRec)
    (guild : GuildState) (role : Role) :
    announcePromotion findServerById guild role =
      if announceConfigured findServerById guild role then
        [GuildOp.announce role.snowflake]
      else [] := by
  unfold announcePromotion announceConfigured
  by_cases h : role.announce
  · rcases hs : findServerById role.server_id with _ | server
    · simp [h, hs]
    · rcases hc : server.announcement_channel with _ | chId
      · simp [h, hs, hc]
      · rcases hch : jsGet guild.channels chId with _ | kind
        · simp [h, hs, hc, hch]
        · cases kind <;> simp [h, hs, hc, hch]
  · simp [h]

theorem countP_promotionOps_removes (f : Nat → Option ServerRec) (roles : List Role)
    (guild : GuildState) (x r : String) :
    (promotionOps f roles guild x).countP (removesRole r) = 0 := by
  unfold promotionOps
  rcases hfind : roles.find? (fun t => t.snowflake = x) with _ | ro
  · simp [hfind]
  · simp only [hfind, announcePromotion_eq]
    by_cases h : announceConfigured f guild ro <;> simp [h, removesRole]

theorem countP_promotionOps_adds (f : Nat → Option ServerRec) (roles : List Role)
    (guild : GuildState) (x r : String) :
    (promotionOps f roles guild x).countP (addsRole r) = 0 := by
  unfold promotionOps
  rcases hfind : roles.find? (fun t => t.snowflake = x) with _ | ro
  · simp [hfind]
  · simp only [hfind, announcePromotion_eq]
    by_cases h : announceConfigured f guild ro <;> simp [h, addsRole]

theorem countP_promotionOps_announces (f : Nat → Option ServerRec) (roles : List Role)
    (guild : GuildState) (x r : String) :
    (promotionOps f roles guild x).countP (announcesRole r) =
      if x = r ∧ (roles.find? (fun t => t.snowflake = x)).any (announceConfigured f guild)
      then 1 else 0 := by
  unfold promotionOps
  rcases hfind : roles.find? (fun t => t.snowflake = x) with _ | ro
  · simp [hfind]
  · have hsnow : ro.snowflake = x := by
      have := List.find?_some hfind
      simpa using this
    simp only [hfind, announcePromotion_eq]
    by_cases h : announceConfigured f guild ro
    · by_cases hxr : x = r
      · simp [h, hxr, announcesRole, hsnow, List.countP_cons]
      · simp [h, hxr, announcesRole, hsnow, List.countP_cons]
    · simp [h]

theorem countP_reconcileRole_removes (f : Nat → Option ServerRec) (roles : List Role)
    (guild : GuildState) (sh uh : List String) (x r : String) :
    (reconcileRole f roles guild sh uh x).countP (removesRole r) =
      if x = r ∧ x ∈ guild.roleIds ∧ x ∈ uh ∧ x ∉ sh then 1 else 0 := by
  by_cases hxr : x = r
  · subst hxr
    unfold reconcileRole
    by_cases hg : x ∈ guild.roleIds
    · by_cases huh : x ∈ uh <;> by_cases hsh : x ∈ sh <;>
        simp [hg, huh, hsh, List.countP_append, List.countP_cons, removesRole,
          countP_promotionOps_removes]
    · simp [hg]
  · have hcond : ¬ (x = r ∧ x ∈ guild.roleIds ∧ x ∈ uh ∧ x ∉ sh) := fun hc => hxr hc.1
    rw [if_neg hcond]
    unfold reconcileRole
    by_cases hg : x ∈ guild.roleIds
    · by_cases huh : x ∈ uh <;> by_cases hsh : x ∈ sh <;>
        simp [hg, huh, hsh, hxr, List.countP_append, List.countP_cons, removesRole,
          countP_promotionOps_removes]
    · simp [hg]

theorem countP_reconcileRole_adds (f : Nat → Option ServerRec) (roles : List Role)
    (guild : GuildState) (sh uh : List String) (x r : String) :
    (reconcileRole f roles guild sh uh x).countP (addsRole r) =
      if x = r ∧ x ∈ guild.roleIds ∧ x ∉ uh ∧ x ∈ sh then 1 else 0 := by
  by_cases hxr : x = r
  · subst hxr
    unfold reconcileRole
    by_cases hg : x ∈ guild.roleIds
    · by_cases huh : x ∈ uh <;> by_cases hsh : x ∈ sh <;>
        simp [hg, huh, hsh, List.countP_append, List.countP_cons, addsRole,
          countP_promotionOps_adds]
    · simp [hg]
  · have hcond : ¬ (x = r ∧ x ∈ guild.roleIds ∧ x ∉ uh ∧ x ∈ sh) := fun hc => hxr hc.1
    rw [if_neg hcond]
    unfold reconcileRole
    by_cases hg : x ∈ guild.roleIds
    · by_cases huh : x ∈ uh <;> by_cases hsh : x ∈ sh <;>
        simp [hg, huh, hsh, hxr, List.countP_append, List.countP_cons, addsRole,
          countP_promotionOps_adds]
    · simp [hg]

theorem countP_reconcileRole_announces (f : Nat → Option ServerRec) (roles : List Role)
    (guild : GuildState) (sh uh : List String) (x r : String) :
    (reconcileRole f roles guild sh uh x).countP (announcesRole r) =
      if x = r ∧ x ∈ guild.roleIds ∧ x ∉ uh ∧ x ∈ sh ∧
         (roles.find? (fun t => t.snowflake = x)).any (announceConfigured f guild)
      then 1 else 0 := by
  by_cases hxr : x = r
  · subst hxr
    unfold reconcileRole
    by_cases hg : x ∈ guild.roleIds
    · by_cases huh : x ∈ uh <;> by_cases hsh : x ∈ sh <;>
        simp [hg, huh, hsh, List.countP_append, List.countP_cons, announcesRole,
          countP_promotionOps_announces]
    · simp [hg]
  · have hcond : ¬ (x = r ∧ x ∈ guild.roleIds ∧ x ∉ uh ∧ x ∈ sh ∧
        (roles.find? (fun t => t.snowflake = x)).any (announceConfigured f guild)) :=
      fun hc => hxr hc.1
    rw [if_neg hcond]
    unfold reconcileRole
    by_cases hg : x ∈ guild.roleIds
    · by_cases huh : x ∈ uh <;> by_cases hsh : x ∈ sh <;>
        simp [hg, huh, hsh, hxr, List.countP_append, List.countP_cons, announcesRole,
          countP_promotionOps_announces]
    · simp [hg]

/-- Summing a map over a duplicate-free list when at most one element can
contribute. -/
theorem sum_map_eq_single {α : Type} [DecidableEq α] (l : List α) (g : α → Nat) (r : α)
    (hnd : l.Nodup) (hz : ∀ x ∈ l, x ≠ r → g x = 0) :
    (l.map g).sum = if r ∈ l then g r else 0 := by
  induction l with
  | nil => simp
  | cons a t ih =>
    rw [List.nodup_cons] at hnd
    rw [List.map_cons, List.sum_cons,
      ih hnd.2 (fun x hx hxr => hz x (List.mem_cons_of_mem _ hx) hxr)]
    by_cases h : a = r
    · subst h
      rw [if_neg hnd.1, if_pos (List.mem_cons_self ..)]
      omega
    · rw [hz a (List.mem_cons_self ..) h]
      by_cases hr : r ∈ t
      · simp [hr, List.mem_cons]
      · have hra : ¬ r = a := fun hh => h hh.symm
        have hmem : ¬ r ∈ a :: t := by simp [List.mem_cons, hr, hra]
        simp [hr, hmem]

theorem countP_updateUserOnGuild_removes (f : Nat → Option ServerRec)
    (roles : List Role) (guild : GuildState) (r : String) :
    (updateUserOnGuild f roles guild).countP (removesRole r) =
      if r ∈ roles.map (·.snowflake) ∧ r ∈ guild.roleIds ∧ r ∈ guild.memberRoles ∧
         r ∉ (roles.filter (·.testResult)).map (·.snowflake) then 1 else 0 := by
  unfold updateUserOnGuild
  rw [List.countP_flatMap,
    sum_map_eq_single _ _ r (nodup_jsSetOf _)
      (fun x _ hxr => by
        simp [Function.comp, countP_reconcileRole_removes, hxr])]
  simp only [Function.comp, countP_reconcileRole_removes, mem_jsSetOf]
  split_ifs <;> first | rfl | tauto

theorem countP_updateUserOnGuild_adds (f : Nat → Option ServerRec)
    (roles : List Role) (guild : GuildState) (r : String) :
    (updateUserOnGuild f roles guild).countP (addsRole r) =
      if r ∈ roles.map (·.snowflake) ∧ r ∈ guild.roleIds ∧ r ∉ guild.memberRoles ∧
         r ∈ (roles.filter (·.testResult)).map (·.snowflake) then 1 else 0 := by
  unfold updateUserOnGuild
  rw [List.countP_flatMap,
    sum_map_eq_single _ _ r (nodup_jsSetOf _)
      (fun x _ hxr => by
        simp [Function.comp, countP_reconcileRole_adds, hxr])]
  simp only [Function.comp, countP_reconcileRole_adds, mem_jsSetOf]
  split_ifs <;> first | rfl | tauto

theorem countP_updateUserOnGuild_announces (f : Nat → Option ServerRec)
    (roles : List Role) (guild : GuildState) (r : String) :
    (updateUserOnGuild f roles guild).countP (announcesRole r) =
      if r ∈ roles.map (·.snowflake) ∧ r ∈ guild.roleIds ∧ r ∉ guild.memberRoles ∧
         r ∈ (roles.filter (·.testResult)).map (·.snowflake) ∧
         (roles.find? (fun t => t.snowflake = r)).any (announceConfigured f guild)
      then 1 else 0 := by
  unfold updateUserOnGuild
  rw [List.countP_flatMap,
    sum_map_eq_single _ _ r (nodup_jsSetOf _)
      (fun x _ hxr => by
        simp [Function.comp, countP_reconcileRole_announces, hxr])]
  simp only [Function.comp, countP_reconcileRole_announces, mem_jsSetOf]
  split_ifs <;> first | rfl | tauto

/-- **C1.** For every role managed by the server that the platform still
recognizes as existing, `updateUserOnGuild` issues exactly one remove-role
operation when the member currently holds the role but its `test(user)`
predicate is false, exactly one add-role operation when the member does
not hold it but the predicate is true, and no operation otherwise; in
particular, with `allRoles = {A,B,C}`, `userHas = {A,B}`,
`shouldHave = {B,C}`, exactly one remove (A) and one add (C) are issued
and B is untouched. -/
theorem claim_C1_role_diff (f : Nat → Option ServerRec) (roles : List Role)
    (guild : GuildState) (r : String) :
    ((updateUserOnGuild f roles guild).countP (removesRole r) =
      if r ∈ roles.map (·.snowflake) ∧ r ∈ guild.roleIds ∧ r ∈ guild.memberRoles ∧
         r ∉ (roles.filter (·.testResult)).map (·.snowflake) then 1 else 0) ∧
    ((updateUserOnGuild f roles guild).countP (addsRole r) =
      if r ∈ roles.map (·.snowflake) ∧ r ∈ guild.roleIds ∧ r ∉ guild.memberRoles ∧
         r ∈ (roles.filter (·.testResult)).map (·.snowflake) then 1 else 0) ∧
    (updateUserOnGuild (fun _ => none)
        [⟨"A", "Role A", false, 1, false⟩, ⟨"B", "Role B", false, 1, true⟩,
         ⟨"C", "Role C", false, 1, true⟩]
        ⟨["A", "B", "C"], ["A", "B"], []⟩ =
      [GuildOp.removeRole "A" "Orianna - User does not meet requirements for this role.",
       GuildOp.addRole "C" "Orianna - User meets requirements for role."]) :=
  ⟨countP_updateUserOnGuild_removes f roles guild r,
   countP_updateUserOnGuild_adds f roles guild r,
   by decide⟩

/-- **C7.** A promotion announcement (the rendering and posting of the
promotion message) is attempted exactly once if and only if an add-role
operation occurred for the role on this guild, the role's announce flag
is set, the owning Server record exists with a configured announcement
channel, and that channel still exists on the guild as a text channel;
when any condition fails no announcement is attempted (a silent no-op,
never an error). -/
theorem claim_C7_announce_iff_add (f : Nat → Option ServerRec) (roles : List Role)
    (guild : GuildState) (r : String) :
    (updateUserOnGuild f roles guild).countP (announcesRole r) =
      if 0 < (updateUserOnGuild f roles guild).countP (addsRole r) ∧
         (roles.find? (fun t => t.snowflake = r)).any (announceConfigured f guild)
      then 1 else 0 := by
  rw [countP_updateUserOnGuild_announces, countP_updateUserOnGuild_adds]
  by_cases hcfg : (roles.find? (fun t => t.snowflake = r)).any (announceConfigured f guild)
  · by_cases hadd : r ∈ roles.map (·.snowflake) ∧ r ∈ guild.roleIds ∧
        r ∉ guild.memberRoles ∧ r ∈ (roles.filter (·.testResult)).map (·.snowflake)
    · rw [if_pos ⟨hadd.1, hadd.2.1, hadd.2.2.1, hadd.2.2.2, hcfg⟩, if_pos hadd,
        if_pos ⟨Nat.zero_lt_one, hcfg⟩]
    · rw [if_neg (fun hc => hadd ⟨hc.1, hc.2.1, hc.2.2.1, hc.2.2.2.1⟩), if_neg hadd]
      simp
  · rw [if_neg (fun hc => hcfg hc.2.2.2.2), if_neg (fun hc => hcfg hc.2)]

theorem jsIndexOf_mem {α : Type} [DecidableEq α] (l : List α) (a d : α) (h : a ∈ l) :
    0 ≤ jsIndexOf l a ∧ l.getD (jsIndexOf l a).toNat d = a := by
  induction l with
  | nil => simp at h
  | cons x t ih =>
    by_cases hx : x = a
    · refine ⟨by simp [jsIndexOf, hx], ?_⟩
      simp [jsIndexOf, hx, List.getD]
    · have ht : a ∈ t := by
        rcases List.mem_cons.mp h with rfl | ht
        · exact absurd rfl hx
        · exact ht
      obtain ⟨hge, hget⟩ := ih ht
      have hneg : ¬ jsIndexOf t a < 0 := by omega
      refine ⟨?_, ?_⟩
      · simp only [jsIndexOf, if_neg hx, if_neg hneg]
        omega
      · simp only [jsIndexOf, if_neg hx, if_neg hneg]
        have htn : (jsIndexOf t a + 1).toNat = (jsIndexOf t a).toNat + 1 := by omega
        rw [htn]
        simpa [List.getD] using hget

theorem mergeRanked_eq_jsAccum (results : List (List LeagueEntry)) :
    mergeRanked results = jsAccum (·.queueType) rankedUpd results.flatten [] := by
  rw [jsAccum, mergeRanked, List.foldl_flatten]

/-- Folding the Option-threaded merge step equals wrapping the plain
integer fold that starts at the stored value (or 0). -/
theorem foldl_rankedUpd_some (l : List LeagueEntry) (a : Int) :
    l.foldl (fun acc e => some (rankedUpd acc e)) (some a) =
      some (l.foldl (fun v e => max v (jsIndexOf tiers e.tier)) a) := by
  induction l generalizing a with
  | nil => rfl
  | cons e t ih =>
    rw [List.foldl_cons, List.foldl_cons, ih]
    have : rankedUpd (some a) e = max a (jsIndexOf tiers e.tier) := by
      simp only [rankedUpd, Option.getD_some]
      split_ifs <;> omega
    rw [this]

theorem foldl_rankedUpd_none (l : List LeagueEntry) (hne : l ≠ []) :
    l.foldl (fun acc e => some (rankedUpd acc e)) none =
      some (l.foldl (fun v e => max v (jsIndexOf tiers e.tier)) 0) := by
  cases l with
  | nil => exact absurd rfl hne
  | cons e t =>
    rw [List.foldl_cons, List.foldl_cons]
    have h1 : rankedUpd none e = max 0 (jsIndexOf tiers e.tier) := by
      simp only [rankedUpd, Option.getD_none]
      split_ifs <;> omega
    rw [h1, foldl_rankedUpd_some]

theorem foldl_max_mem (l : List Int) (a : Int) : l.foldl max a ∈ a :: l := by
  induction l generalizing a with
  | nil => simp
  | cons x t ih =>
    rw [List.foldl_cons]
    rcases List.mem_cons.mp (ih (max a x)) with h | h
    · rw [h]
      rcases max_choice a x with hm | hm <;> rw [hm] <;> simp
    · simp [h]

theorem le_foldl_max (l : List Int) (a : Int) : ∀ v ∈ a :: l, v ≤ l.foldl max a := by
  induction l generalizing a with
  | nil => intro v hv; simp at hv; simp [hv]
  | cons x t ih =>
    intro v hv
    rw [List.foldl_cons]
    rcases List.mem_cons.mp hv with rfl | hv'
    · exact le_trans (le_max_left v x) (ih (max v x) _ (List.mem_cons_self ..))
    · rcases List.mem_cons.mp hv' with rfl | hv''
      · exact le_trans (le_max_right a v) (ih (max a v) _ (List.mem_cons_self ..))
      · exact ih (max a x) v (List.mem_cons_of_mem _ hv'')

/-- **C2.** After `fetchRanked`, for every queue present in at least one
account's league positions there is exactly one Rank row, whose tier is
the highest tier observed for that queue across all accounts (per the
fixed tier ordering); for every queue absent from every account's
results there is no Rank row, whatever Rank rows existed before (they
are all deleted before the merged rows are inserted). -/
theorem claim_C2_fetchRanked (oldRanks : List UserRank)
    (results : List (List LeagueEntry))
    (h : ∀ e ∈ results.flatten, e.tier ∈ tiers) (q : String) :
    ((∃ e ∈ results.flatten, e.queueType = q) →
      ∃ t, (fetchRanked oldRanks results).filter (fun r => r.queue = q) = [⟨q, t⟩] ∧
        (∃ e ∈ results.flatten, e.queueType = q ∧ e.tier = t) ∧
        (∀ e ∈ results.flatten, e.queueType = q →
          jsIndexOf tiers e.tier ≤ jsIndexOf tiers t)) ∧
    ((∀ e ∈ results.flatten, e.queueType ≠ q) →
      (fetchRanked oldRanks results).filter (fun r => r.queue = q) = []) := by
  have hnodup : ((mergeRanked results).map (·.1)).Nodup := by
    rw [mergeRanked_eq_jsAccum]
    exact nodup_keys_jsAccum _ _ _ _ (by simp)
  have hfilter : (fetchRanked oldRanks results).filter (fun r => r.queue = q) =
      ((mergeRanked results).filter (fun qt => qt.1 = q)).map
        (fun qt => (⟨qt.1, tiers.getD qt.2.toNat ""⟩ : UserRank)) := by
    simp only [fetchRanked]
    rw [List.filter_map]
    rfl
  have hget : jsGet (mergeRanked results) q =
      (results.flatten.filter (fun e => e.queueType = q)).foldl
        (fun acc e => some (rankedUpd acc e)) none := by
    rw [mergeRanked_eq_jsAccum, jsGet_jsAccum]
    rfl
  constructor
  · rintro ⟨e, he, heq⟩
    have hemem : e ∈ results.flatten.filter (fun e => e.queueType = q) :=
      List.mem_filter.mpr ⟨he, by simp [heq]⟩
    have hne : results.flatten.filter (fun e => e.queueType = q) ≠ [] :=
      List.ne_nil_of_mem hemem
    set flt := results.flatten.filter (fun e => e.queueType = q) with hfltdef
    have hmax : jsGet (mergeRanked results) q =
        some ((flt.map (fun e => jsIndexOf tiers e.tier)).foldl max 0) := by
      rw [hget, foldl_rankedUpd_none _ hne, List.foldl_map]
    set maxv := (flt.map (fun e => jsIndexOf tiers e.tier)).foldl max 0 with hmaxv
    have hattain : ∃ e₀ ∈ flt, jsIndexOf tiers e₀.tier = maxv := by
      rcases List.mem_cons.mp
          (foldl_max_mem (flt.map (fun e => jsIndexOf tiers e.tier)) 0) with h0 | hin
      · obtain ⟨e₁, he₁⟩ := List.exists_mem_of_ne_nil flt hne
        refine ⟨e₁, he₁, ?_⟩
        have h1 : jsIndexOf tiers e₁.tier ≤ maxv :=
          le_foldl_max _ 0 _ (List.mem_cons_of_mem _ (List.mem_map_of_mem _ he₁))
        have h2 : 0 ≤ jsIndexOf tiers e₁.tier :=
          (jsIndexOf_mem tiers e₁.tier "" (h e₁ (List.mem_of_mem_filter he₁))).1
        omega
      · rcases List.mem_map.mp hin with ⟨e₀, he₀, hv⟩
        exact ⟨e₀, he₀, hv⟩
    obtain ⟨e₀, he₀, hv₀⟩ := hattain
    have htier₀ : e₀.tier ∈ tiers := h e₀ (List.mem_of_mem_filter he₀)
    obtain ⟨hge₀, hget₀⟩ := jsIndexOf_mem tiers e₀.tier "" htier₀
    have ht : jsIndexOf tiers (tiers.getD maxv.toNat "") = maxv := by
      rw [← hv₀, hget₀]
    refine ⟨tiers.getD maxv.toNat "", ?_, ?_, ?_⟩
    · rw [hfilter, filter_key_eq_of_nodup _ _ hnodup, hmax]
      rfl
    · refine ⟨e₀, List.mem_of_mem_filter he₀, ?_, ?_⟩
      · have := List.mem_filter.mp he₀
        simpa using this.2
      · rw [← hv₀, hget₀]
    · intro e' he' hq'
      have he'f : e' ∈ flt := List.mem_filter.mpr ⟨he', by simp [hq']⟩
      have hle : jsIndexOf tiers e'.tier ≤ maxv :=
        le_foldl_max _ 0 _ (List.mem_cons_of_mem _ (List.mem_map_of_mem _ he'f))
      rw [ht]
      exact hle
  · intro hnone
    have hfltnil : results.flatten.filter (fun e => e.queueType = q) = [] := by
      rw [List.filter_eq_nil_iff]
      intro e he
      simpa using hnone e he
    rw [hfilter, filter_key_eq_of_nodup _ _ hnodup, hget, hfltnil]
    rfl

theorem claim_C2_fetchRanked_witness :
    (∀ e ∈ rankedResultsEx.flatten, e.tier ∈ tiers) ∧
    (((∃ e ∈ rankedResultsEx.flatten, e.queueType = "RANKED_SOLO_5x5") →
      ∃ t, (fetchRanked [] rankedResultsEx).filter
          (fun r => r.queue = "RANKED_SOLO_5x5") = [⟨"RANKED_SOLO_5x5", t⟩] ∧
        (∃ e ∈ rankedResultsEx.flatten, e.queueType = "RANKED_SOLO_5x5" ∧ e.tier = t) ∧
        (∀ e ∈ rankedResultsEx.flatten, e.queueType = "RANKED_SOLO_5x5" →
          jsIndexOf tiers e.tier ≤ jsIndexOf tiers t)) ∧
     ((∀ e ∈ rankedResultsEx.flatten, e.queueType ≠ "RANKED_SOLO_5x5") →
      (fetchRanked [] rankedResultsEx).filter
        (fun r => r.queue = "RANKED_SOLO_5x5") = [])) :=
  ⟨by decide, claim_C2_fetchRanked [] rankedResultsEx (by decide) "RANKED_SOLO_5x5"⟩

theorem mergeMastery_eq_jsAccum (masteries : List (List ChampionMasteryInfo)) :
    mergeMastery masteries =
      jsAccum (·.championId) masteryUpd masteries.flatten [] := by
  rw [jsAccum, mergeMastery, List.foldl_flatten]

theorem foldl_masteryUpd_some (l : List ChampionMasteryInfo) (p : Nat × Nat) :
    l.foldl (fun acc e => some (masteryUpd acc e)) (some p) =
      some (p.1 + (l.map (·.championPoints)).sum,
        (l.map (·.championLevel)).foldl max p.2) := by
  induction l generalizing p with
  | nil => simp
  | cons e t ih =>
    rw [List.foldl_cons]
    have hstep : masteryUpd (some p) e =
        (p.1 + e.championPoints, max p.2 e.championLevel) := by
      simp only [masteryUpd, Option.getD_some]
      congr 1
      split_ifs <;> omega
    rw [hstep, ih]
    simp [Nat.add_assoc]

theorem foldl_masteryUpd_none (l : List ChampionMasteryInfo) (hne : l ≠ []) :
    l.foldl (fun acc e => some (masteryUpd acc e)) none =
      some ((l.map (·.championPoints)).sum,
        (l.map (·.championLevel)).foldl max 0) := by
  cases l with
  | nil => exact absurd rfl hne
  | cons e t =>
    rw [List.foldl_cons]
    have hstep : masteryUpd none e = (e.championPoints, e.championLevel) := by
      have h1 : ¬ ((0 : Nat) > e.championLevel) := by omega
      simp [masteryUpd, h1]
    rw [hstep, foldl_masteryUpd_some]
    simp [Nat.zero_max]

/-- `jsGet` on the merged mastery map: the summed score and maximum
level of the entries for that champion, or `none` when the champion
appears in no account's list. -/
theorem jsGet_mergeMastery (masteries : List (List ChampionMasteryInfo)) (c : Nat) :
    jsGet (mergeMastery masteries) c =
      if masteries.flatten.filter (fun e => e.championId = c) = [] then none
      else
        some (((masteries.flatten.filter (fun e => e.championId = c)).map
            (·.championPoints)).sum,
          ((masteries.flatten.filter (fun e => e.championId = c)).map
            (·.championLevel)).foldl max 0) := by
  rw [mergeMastery_eq_jsAccum, jsGet_jsAccum]
  by_cases hnil : masteries.flatten.filter (fun e => e.championId = c) = []
  · rw [hnil]
    simp [jsGet]
  · rw [if_neg hnil, show jsGet ([] : List (Nat × (Nat × Nat))) c = none from rfl,
      foldl_masteryUpd_none _ hnil]

theorem nodup_keys_mergeMastery (masteries : List (List ChampionMasteryInfo)) :
    ((mergeMastery masteries).map (·.1)).Nodup := by
  rw [mergeMastery_eq_jsAccum]
  exact nodup_keys_jsAccum _ _ _ _ (by simp)

theorem foldl_flatMap {α β γ : Type} (g : γ → β → γ) (f : α → List β) (l : List α)
    (init : γ) :
    (l.flatMap f).foldl g init = l.foldl (fun acc x => (f x).foldl g acc) init := by
  induction l generalizing init with
  | nil => rfl
  | cons x t ih => rw [List.flatMap_cons, List.foldl_append, ih, List.foldl_cons]

theorem filter_eraseP_ne (rows : List UserChampionStat) (c c' : Nat) (h : c' ≠ c) :
    (rows.eraseP (fun x => x.champion_id = c')).filter (fun x => x.champion_id = c) =
      rows.filter (fun x => x.champion_id = c) := by
  induction rows with
  | nil => rfl
  | cons x t ih =>
    rw [List.eraseP_cons]
    by_cases hx : x.champion_id = c'
    · have hxc : ¬ x.champion_id = c := by rw [hx]; exact h
      rw [decide_eq_true hx, cond_true, List.filter_cons_of_neg (by simpa using hxc)]
    · rw [decide_eq_false hx, cond_false]
      by_cases hxc : x.champion_id = c
      · rw [List.filter_cons_of_pos (by simpa using hxc),
          List.filter_cons_of_pos (by simpa using hxc), ih]
      · rw [List.filter_cons_of_neg (by simpa using hxc),
          List.filter_cons_of_neg (by simpa using hxc), ih]

theorem filter_eraseP_self (rows : List UserChampionStat) (c : Nat) :
    (rows.eraseP (fun x => x.champion_id = c)).filter (fun x => x.champion_id = c) =
      (rows.filter (fun x => x.champion_id = c)).tail := by
  induction rows with
  | nil => rfl
  | cons x t ih =>
    rw [List.eraseP_cons]
    by_cases hx : x.champion_id = c
    · rw [decide_eq_true hx, cond_true,
        List.filter_cons_of_pos (by simpa using hx), List.tail_cons]
    · rw [decide_eq_false hx, cond_false,
        List.filter_cons_of_neg (by simpa using hx),
        List.filter_cons_of_neg (by simpa using hx), ih]

theorem filter_applyStatOp_ne (rows : List UserChampionStat) (op : StatOp) (c : Nat)
    (h : statOpChampion op ≠ c) :
    (applyStatOp rows op).filter (fun x => x.champion_id = c) =
      rows.filter (fun x => x.champion_id = c) := by
  cases op with
  | deleteStat c' =>
    exact filter_eraseP_ne rows c c' (by simpa [statOpChampion] using h)
  | insertStat row =>
    have hrow : ¬ row.champion_id = c := by simpa [statOpChampion] using h
    show ((rows ++ [row]).filter (fun x => x.champion_id = c)) = _
    rw [List.filter_append]
    simp [List.filter_cons, hrow]

theorem find?_eq_head_filter {α : Type} (p : α → Bool) (l : List α) :
    l.find? p = (l.filter p).head? := by
  induction l with
  | nil => rfl
  | cons x t ih =>
    by_cases hx : p x
    · simp [List.find?_cons, List.filter_cons, hx]
    · rw [List.find?_cons_of_neg _ hx, List.filter_cons_of_neg hx]
      exact ih

/-- In a list whose keys are unique, filtering on a key yields the found
element (or nothing). -/
theorem filter_eq_of_key_nodup {α κ : Type} [DecidableEq κ] (key : α → κ)
    (l : List α) (k : κ) (h : (l.map key).Nodup) :
    l.filter (fun x => key x = k) =
      (l.find? (fun x => key x = k)).elim [] (fun x => [x]) := by
  induction l with
  | nil => rfl
  | cons x t ih =>
    simp only [List.map_cons, List.nodup_cons] at h
    by_cases hx : key x = k
    · have hnil : t.filter (fun x => decide (key x = k)) = [] := by
        rw [List.filter_eq_nil_iff]
        intro q hq hdec
        exact h.1 (by rw [hx, ← (of_decide_eq_true hdec)]; exact List.mem_map_of_mem _ hq)
      rw [List.filter_cons_of_pos (by simpa using hx), hnil,
        List.find?_cons_of_pos _ (by simpa using hx)]
      rfl
    · rw [List.filter_cons_of_neg (by simpa using hx),
        List.find?_cons_of_neg _ (by simpa using hx)]
      exact ih h.2

theorem jsGet_of_mem {α β : Type} [DecidableEq α] (m : List (α × β)) (k : α) (v : β)
    (hnd : (m.map (·.1)).Nodup) (h : (k, v) ∈ m) : jsGet m k = some v := by
  induction m with
  | nil => simp at h
  | cons p t ih =>
    simp only [List.map_cons, List.nodup_cons] at hnd
    rcases List.mem_cons.mp h with rfl | hmem
    · simp [jsGet]
    · by_cases hp : p.1 = k
      · exfalso
        apply hnd.1
        rw [hp]
        exact List.mem_map_of_mem _ hmem
      · simpa [jsGet, hp] using ih hnd.2 hmem

/-- Writes of an entry for a different champion leave the rows with
champion `c` untouched. -/
theorem filter_writeOps_ne (stats db : List UserChampionStat) (ent : Nat × (Nat × Nat))
    (c : Nat) (h : ent.1 ≠ c) :
    ((masteryWrite stats ent).foldl applyStatOp db).filter (fun x => x.champion_id = c) =
      db.filter (fun x => x.champion_id = c) := by
  unfold masteryWrite
  rcases hf : stats.find? (fun x => x.champion_id = ent.1) with _ | old
  · simp only [hf]
    rw [List.foldl_cons, List.foldl_nil]
    exact filter_applyStatOp_ne _ _ _ (by simpa [statOpChampion] using h)
  · simp only [hf]
    by_cases hskip : ent.2.2 = old.level ∧ ent.2.1 = old.score
    · rw [if_pos hskip]
      rfl
    · rw [if_neg hskip, List.foldl_cons, List.foldl_cons, List.foldl_nil]
      rw [filter_applyStatOp_ne _ _ _ (by simpa [statOpChampion] using h)]
      exact filter_applyStatOp_ne _ _ _ (by simpa [statOpChampion] using h)

/-- The writes of an entry, applied when the database rows for the
entry's champion still equal the snapshot's rows for it, leave exactly
one row for that champion: the merged level and score with the old
`games_played` carried over. -/
theorem filter_writeOps_self (stats db : List UserChampionStat) (ent : Nat × (Nat × Nat))
    (hnd : (stats.map (·.champion_id)).Nodup)
    (hdb : db.filter (fun x => x.champion_id = ent.1) =
      stats.filter (fun x => x.champion_id = ent.1)) :
    ((masteryWrite stats ent).foldl applyStatOp db).filter
        (fun x => x.champion_id = ent.1) =
      [⟨ent.1, ent.2.2, ent.2.1,
        (stats.find? (fun x => x.champion_id = ent.1)).elim 0 (·.games_played)⟩] := by
  unfold masteryWrite
  rcases hf : stats.find? (fun x => x.champion_id = ent.1) with _ | old
  · simp only [hf]
    rw [List.foldl_cons, List.foldl_nil]
    show ((db ++ _).filter _) = _
    rw [List.filter_append]
    have hdb0 : db.filter (fun x => x.champion_id = ent.1) = [] := by
      rw [hdb, filter_eq_of_key_nodup (·.champion_id) stats ent.1 hnd, hf]
      rfl
    rw [hdb0]
    simp [List.filter_cons]
  · simp only [hf]
    have hold : old.champion_id = ent.1 := by simpa using List.find?_some hf
    have hdbold : db.filter (fun x => x.champion_id = ent.1) = [old] := by
      rw [hdb, filter_eq_of_key_nodup (·.champion_id) stats ent.1 hnd, hf]
      rfl
    by_cases hskip : ent.2.2 = old.level ∧ ent.2.1 = old.score
    · rw [if_pos hskip, List.foldl_nil, hdbold]
      obtain ⟨hl, hs⟩ := hskip
      obtain ⟨cid, lvl, sc, gp⟩ := old
      simp only at hold hl hs
      rw [hold, ← hl, ← hs]
      rfl
    · rw [if_neg hskip, List.foldl_cons, List.foldl_cons, List.foldl_nil]
      show (((db.eraseP _) ++ _).filter _) = _
      rw [List.filter_append, filter_eraseP_self, hdbold]
      simp [List.filter_cons]

/-- Writes of entries whose champions all differ from `c` leave the rows
with champion `c` untouched. -/
theorem filter_writeFold_frame (ents : List (Nat × (Nat × Nat)))
    (stats db : List UserChampionStat) (c : Nat) (h : ∀ ent ∈ ents, ent.1 ≠ c) :
    ((ents.flatMap (masteryWrite stats)).foldl applyStatOp db).filter
        (fun x => x.champion_id = c) =
      db.filter (fun x => x.champion_id = c) := by
  induction ents generalizing db with
  | nil => rfl
  | cons ent rest ih =>
    rw [List.flatMap_cons, List.foldl_append]
    rw [ih _ (fun e he => h e (List.mem_cons_of_mem _ he))]
    exact filter_writeOps_ne stats db ent c (h ent (List.mem_cons_self ..))

/-- The write loop over a merged entry list with unique champions: the
rows for champion `c` become the singleton merged row when `c` has an
entry, and stay what they were otherwise.  (`hdb` records that the rows
for `c` have not yet been touched relative to the snapshot.) -/
theorem filter_writeFold (ents : List (Nat × (Nat × Nat)))
    (stats db : List UserChampionStat) (c : Nat)
    (hndents : (ents.map (·.1)).Nodup)
    (hndstats : (stats.map (·.champion_id)).Nodup)
    (hdb : db.filter (fun x => x.champion_id = c) =
      stats.filter (fun x => x.champion_id = c)) :
    ((ents.flatMap (masteryWrite stats)).foldl applyStatOp db).filter
        (fun x => x.champion_id = c) =
      match jsGet ents c with
      | some v => [⟨c, v.2, v.1,
          (stats.find? (fun x => x.champion_id = c)).elim 0 (·.games_played)⟩]
      | none => db.filter (fun x => x.champion_id = c) := by
  induction ents generalizing db with
  | nil => rfl
  | cons ent rest ih =>
    simp only [List.map_cons, List.nodup_cons] at hndents
    rw [List.flatMap_cons, List.foldl_append]
    by_cases hc : ent.1 = c
    · subst hc
      have hrest : ∀ e ∈ rest, e.1 ≠ ent.1 := by
        intro e he heq
        exact hndents.1 (heq ▸ List.mem_map_of_mem _ he)
      rw [filter_writeFold_frame rest stats _ ent.1 hrest,
        filter_writeOps_self stats db ent hndstats hdb]
      simp [jsGet]
    · have hdb' : ((masteryWrite stats ent).foldl applyStatOp db).filter
          (fun x => x.champion_id = c) = stats.filter (fun x => x.champion_id = c) := by
        rw [filter_writeOps_ne stats db ent c hc, hdb]
      rw [ih _ hndents.2 hdb']
      rcases hg : jsGet rest c with _ | v
      · simp [jsGet, hc, hg, filter_writeOps_ne stats db ent c hc]
      · simp [jsGet, hc, hg]

/-- Full behaviour of `fetchMasteryScores` on the rows of one champion:
merged row (summed score, maximum level, carried-over games) when the
champion was fetched for some account, untouched rows otherwise. -/
theorem fetchMasteryScores_filter (stats : List UserChampionStat)
    (masteries : List (List ChampionMasteryInfo)) (c : Nat)
    (hnd : (stats.map (·.champion_id)).Nodup) :
    (fetchMasteryScores stats masteries).filter (fun x => x.champion_id = c) =
      if masteries.flatten.filter (fun e => e.championId = c) = [] then
        stats.filter (fun x => x.champion_id = c)
      else
        [⟨c,
          ((masteries.flatten.filter (fun e => e.championId = c)).map
            (·.championLevel)).foldl max 0,
          ((masteries.flatten.filter (fun e => e.championId = c)).map
            (·.championPoints)).sum,
          (stats.find? (fun x => x.champion_id = c)).elim 0 (·.games_played)⟩] := by
  rw [fetchMasteryScores, fetchMasteryScoresOps,
    filter_writeFold (mergeMastery masteries) stats stats c
      (nodup_keys_mergeMastery masteries) hnd rfl,
    jsGet_mergeMastery]
  by_cases hnil : masteries.flatten.filter (fun e => e.championId = c) = []
  · rw [if_pos hnil, if_pos hnil]
  · rw [if_neg hnil, if_neg hnil]

/-- Every operation `masteryWrite` issues is about its entry's champion. -/
theorem masteryWrite_champion (stats : List UserChampionStat) (ent : Nat × (Nat × Nat))
    (op : StatOp) (h : op ∈ masteryWrite stats ent) : statOpChampion op = ent.1 := by
  unfold masteryWrite at h
  rcases hf : stats.find? (fun x => x.champion_id = ent.1) with _ | old
  · simp only [hf] at h
    simp only [List.mem_singleton] at h
    subst h
    rfl
  · simp only [hf] at h
    by_cases hskip : ent.2.2 = old.level ∧ ent.2.1 = old.score
    · rw [if_pos hskip] at h
      simp at h
    · rw [if_neg hskip] at h
      rcases List.mem_cons.mp h with rfl | h2
      · rfl
      · simp only [List.mem_singleton] at h2
        subst h2
        rfl

/-- **C3.** After `fetchMasteryScores`, for every champion appearing in
at least one account's mastery list the user has exactly one Stat row
for it, with `score` the sum of that champion's points across all
accounts, `level` the maximum across all accounts, and `games_played`
carried over from the old row (0 when there was none). -/
theorem claim_C3_mastery_merge (stats : List UserChampionStat)
    (masteries : List (List ChampionMasteryInfo)) (c : Nat)
    (hnd : (stats.map (·.champion_id)).Nodup)
    (hc : c ∈ masteries.flatten.map (·.championId)) :
    (fetchMasteryScores stats masteries).filter (fun x => x.champion_id = c) =
      [⟨c,
        ((masteries.flatten.filter (fun e => e.championId = c)).map
          (·.championLevel)).foldl max 0,
        ((masteries.flatten.filter (fun e => e.championId = c)).map
          (·.championPoints)).sum,
        (stats.find? (fun x => x.champion_id = c)).elim 0 (·.games_played)⟩] := by
  obtain ⟨e, he, hec⟩ := List.mem_map.mp hc
  have hmem : e ∈ masteries.flatten.filter (fun e => e.championId = c) :=
    List.mem_filter.mpr ⟨he, by simp [hec]⟩
  rw [fetchMasteryScores_filter stats masteries c hnd,
    if_neg (List.ne_nil_of_mem hmem)]

theorem claim_C3_mastery_merge_witness :
    ((masteryStatsEx.map (·.champion_id)).Nodup ∧
      1 ∈ masteryResultsEx.flatten.map (·.championId)) ∧
    (fetchMasteryScores masteryStatsEx masteryResultsEx).filter
        (fun x => x.champion_id = 1) =
      [⟨1,
        ((masteryResultsEx.flatten.filter (fun e => e.championId = 1)).map
          (·.championLevel)).foldl max 0,
        ((masteryResultsEx.flatten.filter (fun e => e.championId = 1)).map
          (·.championPoints)).sum,
        (masteryStatsEx.find? (fun x => x.champion_id = 1)).elim 0 (·.games_played)⟩] :=
  ⟨⟨by decide, by decide⟩,
   claim_C3_mastery_merge masteryStatsEx masteryResultsEx 1 (by decide) (by decide)⟩

/-- **C9.** `fetchMasteryScores` never deletes or modifies a Stat row of
a champion absent from every account's freshly fetched mastery list: the
rows for such a champion are unchanged, and no issued operation even
mentions the champion. -/
theorem claim_C9_mastery_stale_rows_persist (stats : List UserChampionStat)
    (masteries : List (List ChampionMasteryInfo)) (c : Nat)
    (hnd : (stats.map (·.champion_id)).Nodup)
    (hc : c ∉ masteries.flatten.map (·.championId)) :
    ((fetchMasteryScores stats masteries).filter (fun x => x.champion_id = c) =
      stats.filter (fun x => x.champion_id = c)) ∧
    (∀ op ∈ fetchMasteryScoresOps stats masteries, statOpChampion op ≠ c) := by
  constructor
  · rw [fetchMasteryScores_filter stats masteries c hnd, if_pos ?_]
    rw [List.filter_eq_nil_iff]
    intro e he hdec
    exact hc (by
      rw [← (of_decide_eq_true hdec)]
      exact List.mem_map_of_mem _ he)
  · intro op hop hopc
    obtain ⟨ent, hent, hopent⟩ := List.mem_flatMap.mp hop
    have hch : statOpChampion op = ent.1 := masteryWrite_champion stats ent op hopent
    have hkey : ent.1 ∈ (mergeMastery masteries).map (·.1) :=
      List.mem_map_of_mem _ hent
    rw [mergeMastery_eq_jsAccum] at hkey
    rcases (mem_keys_jsAccum _ _ _ _ _).mp hkey with h0 | ⟨e, he, hec⟩
    · simp at h0
    · apply hc
      rw [← hopc, hch, ← hec]
      exact List.mem_map_of_mem _ he

theorem claim_C9_mastery_stale_rows_persist_witness :
    ((masteryStatsEx9.map (·.champion_id)).Nodup ∧
      2 ∉ masteryResultsEx.flatten.map (·.championId)) ∧
    ((fetchMasteryScores masteryStatsEx9 masteryResultsEx).filter
        (fun x => x.champion_id = 2) =
      masteryStatsEx9.filter (fun x => x.champion_id = 2)) ∧
    (∀ op ∈ fetchMasteryScoresOps masteryStatsEx9 masteryResultsEx,
      statOpChampion op ≠ 2) :=
  ⟨⟨by decide, by decide⟩,
   claim_C9_mastery_stale_rows_persist masteryStatsEx9 masteryResultsEx 2
     (by decide) (by decide)⟩

/-- **C5.** `fetchMasteryScores` is idempotent with respect to
persistence writes: run against the rows its own previous run produced
(with unchanged mastery data), it issues zero delete or insert
operations. -/
theorem claim_C5_mastery_idempotent (stats : List UserChampionStat)
    (masteries : List (List ChampionMasteryInfo))
    (hnd : (stats.map (·.champion_id)).Nodup) :
    fetchMasteryScoresOps (fetchMasteryScores stats masteries) masteries = [] := by
  rw [fetchMasteryScoresOps, List.flatMap_eq_nil_iff]
  intro ent hent
  have hkey : ent.1 ∈ (mergeMastery masteries).map (·.1) :=
    List.mem_map_of_mem _ hent
  have hflat : ∃ e ∈ masteries.flatten, e.championId = ent.1 := by
    rw [mergeMastery_eq_jsAccum] at hkey
    rcases (mem_keys_jsAccum _ _ _ _ _).mp hkey with h0 | h
    · simp at h0
    · exact h
  obtain ⟨e, he, hec⟩ := hflat
  have hmem : e ∈ masteries.flatten.filter (fun e => e.championId = ent.1) :=
    List.mem_filter.mpr ⟨he, by simp [hec]⟩
  have hne := List.ne_nil_of_mem hmem
  have hget : jsGet (mergeMastery masteries) ent.1 = some ent.2 := by
    apply jsGet_of_mem _ _ _ (nodup_keys_mergeMastery masteries)
    simpa using hent
  have hchar := jsGet_mergeMastery masteries ent.1
  rw [if_neg hne] at hchar
  have hval : ent.2 =
      (((masteries.flatten.filter (fun e => e.championId = ent.1)).map
          (·.championPoints)).sum,
        ((masteries.flatten.filter (fun e => e.championId = ent.1)).map
          (·.championLevel)).foldl max 0) :=
    Option.some.inj (hget.symm.trans hchar)
  have hfilter := fetchMasteryScores_filter stats masteries ent.1 hnd
  rw [if_neg hne] at hfilter
  have hfind : (fetchMasteryScores stats masteries).find?
      (fun x => x.champion_id = ent.1) =
      some ⟨ent.1,
        ((masteries.flatten.filter (fun e => e.championId = ent.1)).map
          (·.championLevel)).foldl max 0,
        ((masteries.flatten.filter (fun e => e.championId = ent.1)).map
          (·.championPoints)).sum,
        (stats.find? (fun x => x.champion_id = ent.1)).elim 0 (·.games_played)⟩ := by
    rw [find?_eq_head_filter, hfilter]
    rfl
  unfold masteryWrite
  simp only [hfind]
  rw [if_pos ⟨by rw [hval], by rw [hval]⟩]

theorem claim_C5_mastery_idempotent_witness :
    (masteryStatsEx.map (·.champion_id)).Nodup ∧
    fetchMasteryScoresOps (fetchMasteryScores masteryStatsEx masteryResultsEx)
      masteryResultsEx = [] :=
  ⟨by decide,
   claim_C5_mastery_idempotent masteryStatsEx masteryResultsEx (by decide)⟩

/-- **C4 (failing input).** One linked account whose summoner lookup
reports "not found": the Account row delete is issued and exactly one
notification is attempted, but the in-memory accounts collection still
contains the account — the source calls the non-mutating
`Array.prototype.slice` where removal (`splice`) was intended, so the
claimed in-memory removal does not happen. -/
theorem claim_C4_transfer_slice_bug :
    fetchAccounts [⟨"euw", 1, 10, "Molenzwiebel"⟩] (fun _ _ => none) =
      ([⟨"euw", 1, 10, "Molenzwiebel"⟩],
       [AccountOp.deleteAccount "euw" 1, AccountOp.notify "✈ Account Transferred?"]) := by
  decide

/-- **C6.** Any error inside the pipeline body is caught at top level,
reported exactly once to the error tracker, and not propagated to the
caller; an error in any guild's reconciliation makes `updateUser` itself
fail (rethrown to its caller) instead of being swallowed there. -/
theorem claim_C6_error_containment (accounts games mastery ranked : Except String Unit)
    (guildResults : List (Except String Unit)) (e : String) :
    ((runPipeline accounts games mastery ranked guildResults).1 = Except.ok ()) ∧
    (pipelineBody accounts games mastery ranked guildResults = Except.error e →
      (runPipeline accounts games mastery ranked guildResults).2 = [e]) ∧
    (Except.error e ∈ guildResults →
      ∃ e', updateUser guildResults = Except.error e') := by
  refine ⟨?_, ?_, ?_⟩
  · rw [runPipeline]
    rcases pipelineBody accounts games mastery ranked guildResults with _ | e'
    · rfl
    · rfl
  · intro hbody
    rw [runPipeline, hbody]
  · intro hmem
    have hfound : (guildResults.find?
        (fun r => match r with | Except.error _ => true | _ => false)).isSome := by
      rw [List.find?_isSome]
      exact ⟨Except.error e, hmem, rfl⟩
    rcases hf : guildResults.find?
        (fun r => match r with | Except.error _ => true | _ => false) with _ | r
    · rw [hf] at hfound
      simp at hfound
    · rcases r with e' | u
      · exact ⟨e', by rw [updateUser, promiseAll, hf]⟩
      · have := List.find?_some hf
        simp at this

theorem claim_C6_error_containment_witness :
    (pipelineBody (Except.ok ()) (Except.ok ()) (Except.ok ()) (Except.ok ())
        guildFailureEx = Except.error "guild boom") ∧
    ((Except.error "guild boom" : Except String Unit) ∈ guildFailureEx) ∧
    ((runPipeline (Except.ok ()) (Except.ok ()) (Except.ok ()) (Except.ok ())
        guildFailureEx).1 = Except.ok ()) ∧
    ((runPipeline (Except.ok ()) (Except.ok ()) (Except.ok ()) (Except.ok ())
        guildFailureEx).2 = ["guild boom"]) ∧
    (∃ e', updateUser guildFailureEx = Except.error e') :=
  ⟨rfl, List.mem_singleton.mpr rfl,
   (claim_C6_error_containment (Except.ok ()) (Except.ok ()) (Except.ok ())
     (Except.ok ()) guildFailureEx "guild boom").1,
   (claim_C6_error_containment (Except.ok ()) (Except.ok ()) (Except.ok ())
     (Except.ok ()) guildFailureEx "guild boom").2.1 rfl,
   (claim_C6_error_containment (Except.ok ()) (Except.ok ()) (Except.ok ())
     (Except.ok ()) guildFailureEx "guild boom").2.2 (List.mem_singleton.mpr rfl)⟩

/-- **C10.** `fetchAndUpdateAll` invoked with a snowflake matching no
stored User throws `"User <snowflake> not found."` to its caller; the
thrown error bypasses the pipeline's own `try`/`catch` (the lookup
precedes the guarded region), so nothing is fetched or reported. -/
theorem claim_C10_missing_user (snowflake : String)
    (accounts games mastery ranked : Except String Unit)
    (guildResults : List (Except String Unit)) :
    fetchAndUpdateAll none snowflake accounts games mastery ranked guildResults =
      Except.error ("User " ++ snowflake ++ " not found.") := rfl

theorem mem_interleave {α : Type} (o : List Bool) (xs ys : List α) (x : α)
    (h : x ∈ interleave o xs ys) : x ∈ xs ∨ x ∈ ys := by
  induction o generalizing xs ys with
  | nil => exact List.mem_append.mp h
  | cons b o ih =>
    cases b with
    | true =>
      cases xs with
      | nil => exact Or.inr h
      | cons x' xs' =>
        rcases List.mem_cons.mp h with rfl | h'
        · exact Or.inl (List.mem_cons_self ..)
        · rcases ih xs' ys h' with h2 | h2
          · exact Or.inl (List.mem_cons_of_mem _ h2)
          · exact Or.inr h2
    | false =>
      cases ys with
      | nil => exact Or.inl h
      | cons y' ys' =>
        rcases List.mem_cons.mp h with rfl | h'
        · exact Or.inr (List.mem_cons_self ..)
        · rcases ih xs ys' h' with h2 | h2
          · exact Or.inl h2
          · exact Or.inr (List.mem_cons_of_mem _ h2)

/-- **C8.** Under every scheduling, `fetchAccounts` completes before
`fetchGamesPlayed` starts and both complete before `fetchMasteryScores`
or `fetchRanked` start: every trace is the fixed
accounts-then-games prefix followed by a suffix containing only
mastery/ranked events.  The two parallel fetches may genuinely overlap:
a schedule interleaving them and a schedule running ranked entirely
before mastery are both realizable. -/
theorem claim_C8_stage_ordering :
    (∀ oracle : List Bool, ∃ par : List StageEv,
      pipelineTrace oracle =
        [StageEv.startAccounts, StageEv.endAccounts,
         StageEv.startGames, StageEv.endGames] ++ par ∧
      (∀ ev ∈ par, ev = StageEv.startMastery ∨ ev = StageEv.endMastery ∨
        ev = StageEv.startRanked ∨ ev = StageEv.endRanked)) ∧
    (pipelineTrace [true, false] =
      [StageEv.startAccounts, StageEv.endAccounts, StageEv.startGames,
       StageEv.endGames, StageEv.startMastery, StageEv.startRanked,
       StageEv.endMastery, StageEv.endRanked]) ∧
    (pipelineTrace [false, false] =
      [StageEv.startAccounts, StageEv.endAccounts, StageEv.startGames,
       StageEv.endGames, StageEv.startRanked, StageEv.endRanked,
       StageEv.startMastery, StageEv.endMastery]) := by
  refine ⟨?_, by decide, by decide⟩
  intro oracle
  refine ⟨interleave oracle [StageEv.startMastery, StageEv.endMastery]
    [StageEv.startRanked, StageEv.endRanked], rfl, ?_⟩
  intro ev hev
  rcases mem_interleave _ _ _ _ hev with h | h
  · rcases List.mem_cons.mp h with rfl | h2
    · exact Or.inl rfl
    · rcases List.mem_cons.mp h2 with rfl | h3
      · exact Or.inr (Or.inl rfl)
      · simp at h3
  · rcases List.mem_cons.mp h with rfl | h2
    · exact Or.inr (Or.inr (Or.inl rfl))
    · rcases List.mem_cons.mp h2 with rfl | h3
      · exact Or.inr (Or.inr (Or.inr rfl))
      · simp at h3

end Orianna
